import Mathlib

/-!
Verification development for the LMS scrobbling core (listen capture,
deduplicated persistence, statistics queries, search pagination and the
listens synchronizer), following the repository's `Listen` store interface
(`Listen.hpp`), the ListenBrainz `Scrobbler` interface
(`ListenBrainzScrobbler.hpp`) and the search view (`SearchView.cpp`).

The repository ships only the declarations of the `Listen` store and of the
scrobbler; the behaviour of those operations is modelled here from the
specification, while `SearchView.cpp` is embedded from its source.
-/

namespace Lms

/-- Scrobbler origin: closed enumeration identifying which backend produced a
listen (`Database::Scrobbler` in the repository). -/
inductive Scrobbler where
  | internal
  | listenBrainz
deriving DecidableEq, Repr

/-- One listen row: the tuple stored by the `Listen` entity
(`_user`, `_track`, `_scrobbler`, `_dateTime` in `Listen.hpp`). User ids,
track ids and date-times are modelled as naturals. -/
structure ListenRecord where
  user : Nat
  track : Nat
  scrobbler : Scrobbler
  dateTime : Nat
deriving DecidableEq, Repr

/-- The Listen Store: the persisted list of listen rows, in insertion order. -/
abbrev Store := List ListenRecord

/-- Whether a stored row matches the lookup tuple
(user, track, scrobbler origin, timestamp). -/
def sameTuple (u t : Nat) (sc : Scrobbler) (dt : Nat) (l : ListenRecord) : Bool :=
  l.user == u && l.track == t && l.scrobbler == sc && l.dateTime == dt

/-- Number of stored rows matching the given tuple. -/
def countTuple (s : Store) (u t : Nat) (sc : Scrobbler) (dt : Nat) : Nat :=
  (List.filter (sameTuple u t sc dt) s).length

/-- Modelled from the spec: `Listen::find(session, userId, trackId, scrobbler,
dateTime)` — exact-match lookup used for the idempotent insert. The
implementation (`Listen.cpp`) is not in the provided sources. -/
def Listen.findExact (s : Store) (u t : Nat) (sc : Scrobbler) (dt : Nat) :
    Option ListenRecord :=
  List.find? (sameTuple u t sc dt) s

/-- The storage error taxonomy relevant to the Listen Store. -/
inductive DbError where
  | ConstraintViolation
deriving DecidableEq, Repr

/-- Modelled from the spec: `Listen::create(session, user, track, scrobbler,
dateTime)` — at-most-once insert, failing with `ConstraintViolation` when an
identical tuple already exists. Returns the store after the call together
with the error, if any; on failure the store is unchanged. The
implementation (`Listen.cpp`) is not in the provided sources. -/
def Listen.create (s : Store) (u t : Nat) (sc : Scrobbler) (dt : Nat) :
    Store × Option DbError :=
  if (Listen.findExact s u t sc dt).isSome then
    (s, some DbError.ConstraintViolation)
  else
    (s ++ [{ user := u, track := t, scrobbler := sc, dateTime := dt }], none)

/-- The find-or-create sequence used by the scrobblers: `Listen::find`
followed by `Listen::create` when `find` returns nothing. -/
def Listen.findOrCreate (s : Store) (u t : Nat) (sc : Scrobbler) (dt : Nat) :
    Store :=
  match Listen.findExact s u t sc dt with
  | some _ => s
  | none => (Listen.create s u t sc dt).1

/- Helper lemmas about exact lookup and tuple counting. -/

theorem sameTuple_self (u t : Nat) (sc : Scrobbler) (dt : Nat) :
    sameTuple u t sc dt { user := u, track := t, scrobbler := sc, dateTime := dt } = true := by
  simp [sameTuple]

theorem findExact_eq_none_iff (s : Store) (u t : Nat) (sc : Scrobbler) (dt : Nat) :
    Listen.findExact s u t sc dt = none ↔ countTuple s u t sc dt = 0 := by
  unfold Listen.findExact countTuple
  rw [List.find?_eq_none, List.length_eq_zero, List.filter_eq_nil_iff]

theorem countTuple_append_single (s : Store) (u t : Nat) (sc : Scrobbler) (dt : Nat) :
    countTuple (s ++ [{ user := u, track := t, scrobbler := sc, dateTime := dt }]) u t sc dt
      = countTuple s u t sc dt + 1 := by
  unfold countTuple
  rw [List.filter_append, List.length_append]
  simp [sameTuple_self]

theorem findOrCreate_count_of_zero (s : Store) (u t : Nat) (sc : Scrobbler) (dt : Nat)
    (h0 : countTuple s u t sc dt = 0) :
    countTuple (Listen.findOrCreate s u t sc dt) u t sc dt = 1 := by
  have hf : Listen.findExact s u t sc dt = none := (findExact_eq_none_iff s u t sc dt).mpr h0
  unfold Listen.findOrCreate
  rw [hf, Listen.create, hf]
  simp only [Option.isSome_none, Bool.false_eq_true, if_false]
  rw [countTuple_append_single, h0]

theorem findOrCreate_of_found (s : Store) (u t : Nat) (sc : Scrobbler) (dt : Nat)
    (h : 0 < countTuple s u t sc dt) :
    Listen.findOrCreate s u t sc dt = s := by
  unfold Listen.findOrCreate
  cases hf : Listen.findExact s u t sc dt with
  | none =>
      have h0 : countTuple s u t sc dt = 0 := (findExact_eq_none_iff s u t sc dt).mp hf
      omega
  | some l => rfl

theorem findOrCreate_count_eq_one (s : Store) (u t : Nat) (sc : Scrobbler) (dt : Nat)
    (hUnique : countTuple s u t sc dt ≤ 1) :
    countTuple (Listen.findOrCreate s u t sc dt) u t sc dt = 1 := by
  rcases Nat.eq_zero_or_pos (countTuple s u t sc dt) with h0 | hpos
  · exact findOrCreate_count_of_zero s u t sc dt h0
  · rw [findOrCreate_of_found s u t sc dt hpos]; omega

/-- C1 — Idempotent find-or-create: starting from a store satisfying the
uniqueness invariant (at most one row for the tuple), running the
find-or-create sequence twice with the same (user, track, scrobbler origin,
timestamp) leaves exactly one stored Listen for that tuple, and the second
identical submission changes nothing (it returns the store unchanged). -/
theorem findOrCreate_idempotent (s : Store) (u t : Nat) (sc : Scrobbler) (dt : Nat)
    (hUnique : countTuple s u t sc dt ≤ 1) :
    countTuple (Listen.findOrCreate (Listen.findOrCreate s u t sc dt) u t sc dt) u t sc dt = 1
      ∧ Listen.findOrCreate (Listen.findOrCreate s u t sc dt) u t sc dt
          = Listen.findOrCreate s u t sc dt := by
  have h1 : countTuple (Listen.findOrCreate s u t sc dt) u t sc dt = 1 :=
    findOrCreate_count_eq_one s u t sc dt hUnique
  have h2 := findOrCreate_of_found (Listen.findOrCreate s u t sc dt) u t sc dt (by omega)
  exact ⟨by rw [h2, h1], h2⟩

/-- Witness for C1 at the empty store. -/
theorem findOrCreate_idempotent_witness :
    countTuple ([] : Store) 1 2 Scrobbler.listenBrainz 10 ≤ 1
      ∧ countTuple
          (Listen.findOrCreate (Listen.findOrCreate [] 1 2 Scrobbler.listenBrainz 10)
            1 2 Scrobbler.listenBrainz 10) 1 2 Scrobbler.listenBrainz 10 = 1 :=
  ⟨by decide, (findOrCreate_idempotent [] 1 2 Scrobbler.listenBrainz 10 (by decide)).1⟩

/-- C3 — `Listen::create` fails with `ConstraintViolation` if and only if a
Listen with an identical (user, track, scrobbler origin, timestamp) tuple
already exists in the store; on that failure the store is unchanged, and
treating the duplicate as a no-op (the find-or-create path) indeed leaves
the store unchanged. -/
theorem create_constraintViolation_iff (s : Store) (u t : Nat) (sc : Scrobbler) (dt : Nat) :
    ((Listen.create s u t sc dt).2 = some DbError.ConstraintViolation
        ↔ ∃ l ∈ s, sameTuple u t sc dt l = true)
      ∧ ((Listen.create s u t sc dt).2 = some DbError.ConstraintViolation
          → (Listen.create s u t sc dt).1 = s ∧ Listen.findOrCreate s u t sc dt = s) := by
  cases hf : Listen.findExact s u t sc dt with
  | none =>
      have hcreate : Listen.create s u t sc dt
          = (s ++ [{ user := u, track := t, scrobbler := sc, dateTime := dt }], none) := by
        unfold Listen.create
        rw [hf]
        rfl
      rw [hcreate]
      constructor
      · constructor
        · intro h; exact absurd h (by simp)
        · intro ⟨l, hl, hm⟩
          have := List.find?_eq_none.mp hf l hl
          simp [hm] at this
      · intro h; exact absurd h (by simp)
  | some l =>
      have hcreate : Listen.create s u t sc dt = (s, some DbError.ConstraintViolation) := by
        unfold Listen.create
        rw [hf]
        rfl
      rw [hcreate]
      refine ⟨⟨fun _ => ⟨l, List.mem_of_find?_eq_some hf, List.find?_some hf⟩, fun _ => rfl⟩,
        fun _ => ⟨rfl, ?_⟩⟩
      unfold Listen.findOrCreate
      rw [hf]

/-- Witness for C3 at a one-row store holding the duplicate tuple. -/
theorem create_constraintViolation_witness :
    (Listen.create [⟨1, 2, Scrobbler.listenBrainz, 10⟩] 1 2 Scrobbler.listenBrainz 10).2
        = some DbError.ConstraintViolation
      ∧ (Listen.create [⟨1, 2, Scrobbler.listenBrainz, 10⟩] 1 2 Scrobbler.listenBrainz 10).1
        = [⟨1, 2, Scrobbler.listenBrainz, 10⟩] := by
  have h := create_constraintViolation_iff [⟨1, 2, Scrobbler.listenBrainz, 10⟩]
    1 2 Scrobbler.listenBrainz 10
  have herr : (Listen.create [⟨1, 2, Scrobbler.listenBrainz, 10⟩]
      1 2 Scrobbler.listenBrainz 10).2 = some DbError.ConstraintViolation :=
    h.1.mpr ⟨⟨1, 2, Scrobbler.listenBrainz, 10⟩, by decide, by decide⟩
  exact ⟨herr, (h.2 herr).1⟩

/-! ### Range pagination (`RangeResults` / `Range` helper) -/

/-- Paginated results: the page of items and the has-more flag
(`RangeResults<T>` in the repository). -/
structure RangeResults (α : Type) where
  results : List α
  moreResults : Bool
deriving Repr, DecidableEq

/-- Modelled from the spec: applying a `Range {offset, size}` to the full
ordered result sequence — the slice of at most `limit` items starting at
`offset`, plus a flag telling whether further items exist past this page.
The `RangeResults` implementation is not in the provided sources. -/
def applyRange {α : Type} (l : List α) (offset limit : Nat) : RangeResults α :=
  { results := (l.drop offset).take limit
    moreResults := decide (offset + limit < l.length) }

/-- Concatenation of the first `k` sequential pages of size `limit`. -/
def concatPages {α : Type} (l : List α) (limit : Nat) : Nat → List α
  | 0 => []
  | k + 1 => concatPages l limit k ++ (applyRange l (k * limit) limit).results

/-- Number of pages of size `limit` needed to cover `len` items. -/
def numPages (len limit : Nat) : Nat :=
  (len + limit - 1) / limit

theorem concatPages_eq_take {α : Type} (l : List α) (limit : Nat) :
    ∀ k, concatPages l limit k = l.take (k * limit) := by
  intro k
  induction k with
  | zero => simp [concatPages]
  | succ k ih =>
      rw [concatPages, ih, applyRange]
      simp only
      rw [← List.take_add, Nat.succ_mul]

theorem le_numPages_mul (len limit : Nat) (h : 0 < limit) :
    len ≤ numPages len limit * limit := by
  have hm := Nat.div_add_mod (len + limit - 1) limit
  have hlt : (len + limit - 1) % limit < limit := Nat.mod_lt _ h
  unfold numPages
  rw [Nat.mul_comm]
  revert hm hlt
  generalize (len + limit - 1) % limit = r
  generalize limit * ((len + limit - 1) / limit) = x
  intro hm hlt
  omega

theorem numPages_le_of_le_mul (len limit m : Nat) (h : 0 < limit) (hle : len ≤ m * limit) :
    numPages len limit ≤ m := by
  unfold numPages
  rw [Nat.lt_succ_iff.symm, Nat.div_lt_iff_lt_mul h, Nat.succ_mul]
  revert hle
  generalize m * limit = x
  intro hle
  omega

theorem mul_lt_of_lt_numPages (len limit j : Nat) (h : 0 < limit)
    (hj : j < numPages len limit) : j * limit < len := by
  by_contra hnot
  have hle : len ≤ j * limit := Nat.le_of_not_lt hnot
  exact Nat.not_lt.mpr (numPages_le_of_le_mul len limit j h hle) hj

/-- C5 — Pagination correctness: for every full ordered result sequence and
every positive page size, concatenating the sequential pages of size `limit`
(at offsets `0, limit, 2*limit, ...`) reproduces the full sequence with no
gaps and no duplicates, and the has-more flag of page `i` is `false` exactly
on the last page. -/
theorem pagination_correct {α : Type} (l : List α) (limit : Nat) (hpos : 0 < limit) :
    concatPages l limit (numPages l.length limit) = l
      ∧ ∀ i < numPages l.length limit,
          ((applyRange l (i * limit) limit).moreResults = false
            ↔ i = numPages l.length limit - 1) := by
  constructor
  · rw [concatPages_eq_take]
    exact List.take_of_length_le (le_numPages_mul l.length limit hpos)
  · intro i hi
    unfold applyRange
    simp only [decide_eq_false_iff_not, Nat.not_lt]
    constructor
    · intro hle
      have hle' : l.length ≤ (i + 1) * limit := by
        rw [Nat.succ_mul]
        omega
      have := numPages_le_of_le_mul l.length limit (i + 1) hpos hle'
      omega
    · intro heq
      subst heq
      have h1 : (numPages l.length limit - 1) * limit + limit
          = numPages l.length limit * limit := by
        have : 0 < numPages l.length limit := by omega
        rw [← Nat.succ_mul]
        congr 1
        omega
      have h2 := le_numPages_mul l.length limit hpos
      omega

/-- Witness for C5: five items paged by two give pages
`[0,1]`, `[2,3]`, `[4]`; their concatenation is the full list and only the
last page reports no more results. -/
theorem pagination_correct_witness :
    (0 : Nat) < 2
      ∧ concatPages [10, 11, 12, 13, 14] 2 (numPages 5 2) = [10, 11, 12, 13, 14]
      ∧ ((applyRange [10, 11, 12, 13, 14] (2 * 2) 2).moreResults = false ↔ 2 = numPages 5 2 - 1) :=
  ⟨by decide, (pagination_correct [10, 11, 12, 13, 14] 2 (by decide)).1,
    (pagination_correct [10, 11, 12, 13, 14] 2 (by decide)).2 2 (by decide)⟩

/-! ### Statistics queries (`Listen::getTopTracks`, `Listen::find` range) -/

/-- The listens of one user recorded by one scrobbler origin. -/
def userScrobblerListens (s : Store) (u : Nat) (sc : Scrobbler) : List ListenRecord :=
  List.filter (fun l => l.user == u && l.scrobbler == sc) s

/-- Play count of a track for a (user, scrobbler origin) pair. -/
def playCount (s : Store) (u : Nat) (sc : Scrobbler) (t : Nat) : Nat :=
  (List.filter (fun l => l.track == t) (userScrobblerListens s u sc)).length

/-- Timestamp of the most recent listen of a track for a
(user, scrobbler origin) pair (`0` when the track was never listened to). -/
def lastListenedAt (s : Store) (u : Nat) (sc : Scrobbler) (t : Nat) : Nat :=
  (List.filter (fun l => l.track == t) (userScrobblerListens s u sc)).foldr
    (fun l m => max l.dateTime m) 0

/-- The ranking order of `getTopTracks`: descending play count, ties broken
by most-recent listen timestamp descending. -/
def topRel (s : Store) (u : Nat) (sc : Scrobbler) (a b : Nat) : Prop :=
  playCount s u sc b < playCount s u sc a
    ∨ (playCount s u sc a = playCount s u sc b
        ∧ lastListenedAt s u sc b ≤ lastListenedAt s u sc a)

instance (s : Store) (u : Nat) (sc : Scrobbler) : DecidableRel (topRel s u sc) := by
  intro a b
  unfold topRel
  exact inferInstance

instance (s : Store) (u : Nat) (sc : Scrobbler) : IsTotal Nat (topRel s u sc) := by
  constructor
  intro a b
  unfold topRel
  omega

instance (s : Store) (u : Nat) (sc : Scrobbler) : IsTrans Nat (topRel s u sc) := by
  constructor
  intro a b c hab hbc
  unfold topRel at *
  omega

/-- Whether a track carries every cluster id of the filter set
(intersection semantics). -/
def matchesClusters (trackClusters : Nat → List Nat) (clusterIds : List Nat) (t : Nat) : Bool :=
  clusterIds.all (fun c => (trackClusters t).contains c)

/-- Modelled from the spec: `Listen::getTopTracks(session, userId, scrobbler,
clusterIds, range)` — the track ids of the user's listens under this
scrobbler origin, restricted to tracks matching every cluster filter,
ranked by play count descending with ties broken by most-recent listen
timestamp descending, then restricted to the range. `trackClusters` is the
cluster tagging of the library's tracks. The implementation (`Listen.cpp`)
is not in the provided sources. -/
def getTopTracks (trackClusters : Nat → List Nat) (s : Store) (u : Nat) (sc : Scrobbler)
    (clusterIds : List Nat) (offset limit : Nat) : RangeResults Nat :=
  let candidates :=
    (((userScrobblerListens s u sc).map ListenRecord.track).dedup).filter
      (matchesClusters trackClusters clusterIds)
  applyRange (candidates.insertionSort (topRel s u sc)) offset limit

/-- C4 — `getTopTracks` ordering: for every user, scrobbler origin, cluster
filter set and range, the returned track ids are pairwise ordered by play
count descending with ties broken by most-recent listen timestamp
descending, and the query is deterministic: a repeated call on the
unchanged store returns the same result. -/
theorem getTopTracks_sorted (trackClusters : Nat → List Nat) (s : Store) (u : Nat)
    (sc : Scrobbler) (clusterIds : List Nat) (offset limit : Nat) :
    (getTopTracks trackClusters s u sc clusterIds offset limit).results.Pairwise
        (fun a b => playCount s u sc b < playCount s u sc a
          ∨ (playCount s u sc a = playCount s u sc b
              ∧ lastListenedAt s u sc b ≤ lastListenedAt s u sc a))
      ∧ getTopTracks trackClusters s u sc clusterIds offset limit
          = getTopTracks trackClusters s u sc clusterIds offset limit := by
  refine ⟨?_, rfl⟩
  have hsorted : (List.insertionSort (topRel s u sc)
      ((((userScrobblerListens s u sc).map ListenRecord.track).dedup).filter
        (matchesClusters trackClusters clusterIds))).Pairwise (topRel s u sc) :=
    List.sorted_insertionSort (topRel s u sc) _
  have hsub : (getTopTracks trackClusters s u sc clusterIds offset limit).results.Sublist
      (List.insertionSort (topRel s u sc)
        ((((userScrobblerListens s u sc).map ListenRecord.track).dedup).filter
          (matchesClusters trackClusters clusterIds))) := by
    unfold getTopTracks applyRange
    simp only
    exact (List.take_sublist _ _).trans (List.drop_sublist _ _)
  exact hsorted.sublist hsub

/-! ### Cascade deletion (`Wt::Dbo::OnDeleteCascade` on `_user` / `_track`) -/

/-- Modelled from the spec: deleting a user cascades deletion of every
Listen referencing it, in the same operation (`OnDeleteCascade` on the
`user` field of `Listen::persist`; the cascade is executed by the ORM,
which is outside the provided sources). -/
def deleteUser (s : Store) (u : Nat) : Store :=
  List.filter (fun l => !(l.user == u)) s

/-- Modelled from the spec: deleting a track cascades deletion of every
Listen referencing it (`OnDeleteCascade` on the `track` field of
`Listen::persist`). -/
def deleteTrack (s : Store) (t : Nat) : Store :=
  List.filter (fun l => !(l.track == t)) s

/-- Most-recent-first order on listen rows, used by the paginated
`Listen::find(session, userId, scrobbler, range)` query. -/
def recentRel (a b : ListenRecord) : Prop :=
  b.dateTime ≤ a.dateTime

instance : DecidableRel recentRel := by
  intro a b
  unfold recentRel
  exact inferInstance

/-- Modelled from the spec: `Listen::find(session, userId, scrobbler,
range)` — the user's listens under this scrobbler origin ordered by
timestamp descending, restricted to the range. The implementation
(`Listen.cpp`) is not in the provided sources. -/
def Listen.findRange (s : Store) (u : Nat) (sc : Scrobbler) (offset limit : Nat) :
    RangeResults ListenRecord :=
  applyRange ((userScrobblerListens s u sc).insertionSort recentRel) offset limit

theorem userScrobblerListens_deleteUser (s : Store) (u : Nat) (sc : Scrobbler) :
    userScrobblerListens (deleteUser s u) u sc = [] := by
  unfold userScrobblerListens deleteUser
  rw [List.filter_eq_nil_iff]
  intro a ha
  have hq := List.of_mem_filter ha
  simp only [Bool.not_eq_eq_eq_not, Bool.not_true, beq_eq_false_iff_ne] at hq
  simp only [Bool.and_eq_true, beq_iff_eq, not_and]
  exact fun h _ => hq h

/-- C6 — Cascade deletion invariant: deleting a user (or a track) removes,
in the same operation, every Listen referencing it — no remaining Listen
references the deleted user or track — and subsequent statistical queries
for a deleted user (top tracks, recent listens) return empty results. -/
theorem cascade_delete (s : Store) (u t : Nat) (sc : Scrobbler)
    (trackClusters : Nat → List Nat) (clusterIds : List Nat) (offset limit : Nat) :
    (∀ l ∈ deleteUser s u, l.user ≠ u)
      ∧ (∀ l ∈ deleteTrack s t, l.track ≠ t)
      ∧ (getTopTracks trackClusters (deleteUser s u) u sc clusterIds offset limit).results = []
      ∧ (Listen.findRange (deleteUser s u) u sc offset limit).results = [] := by
  have hempty := userScrobblerListens_deleteUser s u sc
  refine ⟨?_, ?_, ?_, ?_⟩
  · intro l hl
    have hq := List.of_mem_filter hl
    simpa using hq
  · intro l hl
    have hq := List.of_mem_filter hl
    simpa using hq
  · unfold getTopTracks applyRange
    rw [hempty]
    simp [List.insertionSort]
  · unfold Listen.findRange applyRange
    rw [hempty]
    simp [List.insertionSort]

/-- Witness for C6 at a two-row store: deleting user 1 leaves only user 3's
row, which does not reference user 1, and user 1's statistics are empty. -/
theorem cascade_delete_witness :
    (⟨3, 2, Scrobbler.listenBrainz, 11⟩ : ListenRecord).user ≠ 1
      ∧ (getTopTracks (fun _ => [])
          (deleteUser [⟨1, 2, Scrobbler.listenBrainz, 10⟩, ⟨3, 2, Scrobbler.listenBrainz, 11⟩] 1)
          1 Scrobbler.listenBrainz [] 0 10).results = [] :=
  ⟨(cascade_delete [⟨1, 2, Scrobbler.listenBrainz, 10⟩, ⟨3, 2, Scrobbler.listenBrainz, 11⟩]
      1 2 Scrobbler.listenBrainz (fun _ => []) [] 0 10).1
      ⟨3, 2, Scrobbler.listenBrainz, 11⟩ (by decide),
    (cascade_delete [⟨1, 2, Scrobbler.listenBrainz, 10⟩, ⟨3, 2, Scrobbler.listenBrainz, 11⟩]
      1 2 Scrobbler.listenBrainz (fun _ => []) [] 0 10).2.2.1⟩

/-! ### Per-backend scrobbler (`Scrobbler::listenStarted` /
`Scrobbler::listenFinished`, `ListenBrainzScrobbler.hpp`) -/

/-- The state a per-backend scrobbler acts on: the Listen Store plus its
transient now-playing state, the best-effort now-playing notifications sent
to the remote backend, and the queue of listens awaiting remote
synchronization. -/
structure ScrobblerState where
  store : Store
  nowPlaying : Option ListenRecord
  notified : List ListenRecord
  syncQueue : List ListenRecord
deriving Repr, DecidableEq

/-- Modelled from the spec: the minimum-listened-duration threshold relative
to track length — played at least half the track or at least a fixed floor,
whichever is smaller. The exact formula is an open policy point of the
spec, so the floor is a parameter. -/
def listenThreshold (trackLen floorSecs : Nat) : Nat :=
  min (trackLen / 2) floorSecs

/-- Modelled from the spec: `Scrobbler::listenStarted` — records the
"now playing" state and fires a best-effort remote notification; it does
not persist a Listen row. The implementation (`ListenBrainzScrobbler.cpp`)
is not in the provided sources. -/
def Scrobbler.listenStarted (st : ScrobblerState) (l : ListenRecord) : ScrobblerState :=
  { st with nowPlaying := some l, notified := st.notified ++ [l] }

/-- Modelled from the spec: `Scrobbler::listenFinished` — persists the
listen via idempotent find-or-create and enqueues it for remote
synchronization when the played duration meets the eligibility threshold;
below the threshold the event is silently dropped. The implementation
(`ListenBrainzScrobbler.cpp`) is not in the provided sources. -/
def Scrobbler.listenFinished (floorSecs trackLen : Nat) (st : ScrobblerState)
    (l : ListenRecord) (played : Nat) : ScrobblerState :=
  if listenThreshold trackLen floorSecs ≤ played then
    { st with
        store := Listen.findOrCreate st.store l.user l.track l.scrobbler l.dateTime
        syncQueue := st.syncQueue ++ [l] }
  else
    st

/-- C2 — Eligibility threshold for `listenFinished`: below the
minimum-listened-duration threshold the store is unchanged (the event is
silently dropped, no error is possible — the operation is total); at or
above the threshold the listen is persisted via the idempotent
find-or-create, leaving exactly one row for the tuple. -/
theorem listenFinished_threshold (floorSecs trackLen : Nat) (st : ScrobblerState)
    (l : ListenRecord) (played : Nat)
    (hUnique : countTuple st.store l.user l.track l.scrobbler l.dateTime ≤ 1) :
    (played < listenThreshold trackLen floorSecs →
        (Scrobbler.listenFinished floorSecs trackLen st l played).store = st.store)
      ∧ (listenThreshold trackLen floorSecs ≤ played →
          (Scrobbler.listenFinished floorSecs trackLen st l played).store
              = Listen.findOrCreate st.store l.user l.track l.scrobbler l.dateTime
            ∧ countTuple (Scrobbler.listenFinished floorSecs trackLen st l played).store
                l.user l.track l.scrobbler l.dateTime = 1) := by
  constructor
  · intro hlt
    unfold Scrobbler.listenFinished
    rw [if_neg (by omega)]
  · intro hge
    unfold Scrobbler.listenFinished
    rw [if_pos hge]
    exact ⟨rfl, findOrCreate_count_eq_one st.store l.user l.track l.scrobbler l.dateTime hUnique⟩

/-- Witness for C2 at the spec's scenario: a 200s track with a 240s floor
has threshold 100s; playing 80s stores nothing, playing 120s stores exactly
one row. -/
theorem listenFinished_threshold_witness :
    countTuple ([] : Store) 1 2 Scrobbler.listenBrainz 10 ≤ 1
      ∧ (Scrobbler.listenFinished 240 200 ⟨[], none, [], []⟩
          ⟨1, 2, Scrobbler.listenBrainz, 10⟩ 80).store = []
      ∧ countTuple (Scrobbler.listenFinished 240 200 ⟨[], none, [], []⟩
          ⟨1, 2, Scrobbler.listenBrainz, 10⟩ 120).store 1 2 Scrobbler.listenBrainz 10 = 1 :=
  ⟨by decide,
    (listenFinished_threshold 240 200 ⟨[], none, [], []⟩
      ⟨1, 2, Scrobbler.listenBrainz, 10⟩ 80 (by decide)).1 (by decide),
    ((listenFinished_threshold 240 200 ⟨[], none, [], []⟩
      ⟨1, 2, Scrobbler.listenBrainz, 10⟩ 120 (by decide)).2 (by decide)).2⟩

/-- C7 — `listenStarted` never persists a Listen row: it leaves the Listen
Store (and the remote-sync queue) unchanged, only recording the transient
now-playing state and firing a best-effort remote notification. -/
theorem listenStarted_no_persist (st : ScrobblerState) (l : ListenRecord) :
    (Scrobbler.listenStarted st l).store = st.store
      ∧ (Scrobbler.listenStarted st l).syncQueue = st.syncQueue
      ∧ (Scrobbler.listenStarted st l).nowPlaying = some l
      ∧ (Scrobbler.listenStarted st l).notified = st.notified ++ [l] :=
  ⟨rfl, rfl, rfl, rfl⟩

/-! ### Listens synchronizer (`ListensSynchronizer`, spec §4.3) -/

/-- The phases of the synchronizer's state machine
(`Idle → Fetching → Processing → Committing → Idle | BackingOff`). A batch
is the list of remote-entry timestamps being imported. -/
inductive SyncPhase where
  | idle
  | fetching
  | processing (batch : List Nat)
  | committing (batch : List Nat)
  | backingOff
deriving Repr, DecidableEq

/-- The per (user, backend) synchronizer state: the phase, the persisted
synchronization cursor (last successfully synchronized remote timestamp)
and the timestamps of the durably committed imported entries. -/
structure SyncState where
  phase : SyncPhase
  cursor : Nat
  imported : List Nat
deriving Repr, DecidableEq

/-- The batch carried by the current phase (empty outside
processing/committing). -/
def batchOf : SyncPhase → List Nat
  | SyncPhase.processing b => b
  | SyncPhase.committing b => b
  | _ => []

/-- The events driving the synchronizer: a triggered sync request, a remote
page arriving (or failing), local resolution of the batch (the `resolved`
predicate keeps the entries whose track matched locally; unmatched entries
are skipped), the batch transaction committing (or failing), a backoff
retry, and a process restart. -/
inductive SyncEvent where
  | startFetch
  | fetchPage (page : List Nat)
  | fetchFail
  | processBatch (resolved : Nat → Bool)
  | commitOk
  | commitFail
  | retry
  | restart

/-- Modelled from the spec: one transition of the listens-synchronizer
state machine (§4.3). Fetching requests the remote history strictly after
the persisted cursor; the cursor advances only when the batch transaction
commits, to the greatest imported timestamp; a restart loses the transient
phase but keeps the persisted cursor and the durably committed entries.
`none` means the event is not applicable in the current phase. The
implementation (`ListensSynchronizer.cpp`) is not in the provided
sources. -/
def syncStep (s : SyncState) (e : SyncEvent) : Option SyncState :=
  match s.phase, e with
  | SyncPhase.idle, SyncEvent.startFetch => some { s with phase := SyncPhase.fetching }
  | SyncPhase.fetching, SyncEvent.fetchPage page =>
      some { s with phase := SyncPhase.processing (page.filter (fun ts => s.cursor < ts)) }
  | SyncPhase.fetching, SyncEvent.fetchFail => some { s with phase := SyncPhase.backingOff }
  | SyncPhase.processing b, SyncEvent.processBatch resolved =>
      some { s with phase := SyncPhase.committing (b.filter resolved) }
  | SyncPhase.committing b, SyncEvent.commitOk =>
      some { phase := SyncPhase.idle
             cursor := b.foldr max s.cursor
             imported := s.imported ++ b }
  | SyncPhase.committing _, SyncEvent.commitFail =>
      some { s with phase := SyncPhase.backingOff }
  | SyncPhase.backingOff, SyncEvent.retry => some { s with phase := SyncPhase.fetching }
  | _, SyncEvent.restart =>
      some { phase := SyncPhase.idle, cursor := s.cursor, imported := s.imported }
  | _, _ => none

/-- Running the synchronizer over a sequence of events (events not
applicable in the current phase leave the state unchanged). -/
def syncRun (s : SyncState) : List SyncEvent → SyncState
  | [] => s
  | e :: es => syncRun ((syncStep s e).getD s) es

/-- The synchronizer invariant: every durably committed entry is at or
before the persisted cursor, and every entry of an in-flight batch is
strictly after it. -/
def SyncInv (s : SyncState) : Prop :=
  (∀ ts ∈ s.imported, ts ≤ s.cursor) ∧ (∀ ts ∈ batchOf s.phase, s.cursor < ts)

instance (s : SyncState) : Decidable (SyncInv s) := by
  unfold SyncInv
  exact inferInstance

theorem le_foldr_max (c : Nat) (b : List Nat) : c ≤ b.foldr max c := by
  induction b with
  | nil => exact Nat.le_refl c
  | cons x xs ih => exact Nat.le_trans ih (Nat.le_max_right x (xs.foldr max c))

theorem mem_le_foldr_max (c : Nat) (b : List Nat) : ∀ ts ∈ b, ts ≤ b.foldr max c := by
  intro ts hts
  induction b with
  | nil => cases hts
  | cons x xs ih =>
      rcases List.mem_cons.mp hts with h | h
      · subst h; exact Nat.le_max_left ts (xs.foldr max c)
      · exact Nat.le_trans (ih h) (Nat.le_max_right x (xs.foldr max c))

theorem syncStep_cursor_le (s : SyncState) (e : SyncEvent) (s' : SyncState)
    (hstep : syncStep s e = some s') : s.cursor ≤ s'.cursor := by
  cases hp : s.phase <;> cases e <;>
    simp only [syncStep, hp] at hstep <;>
    cases hstep <;>
    first
      | exact Nat.le_refl _
      | exact le_foldr_max _ _

theorem syncRun_cursor_le (s : SyncState) (es : List SyncEvent) :
    s.cursor ≤ (syncRun s es).cursor := by
  induction es generalizing s with
  | nil => exact Nat.le_refl _
  | cons e es ih =>
      rw [syncRun]
      refine Nat.le_trans ?_ (ih ((syncStep s e).getD s))
      cases hstep : syncStep s e with
      | none => simp
      | some s' => simpa using syncStep_cursor_le s e s' hstep

theorem syncStep_inv (s : SyncState) (e : SyncEvent) (s' : SyncState)
    (hInv : SyncInv s) (hstep : syncStep s e = some s') : SyncInv s' := by
  obtain ⟨hImp, hBatch⟩ := hInv
  cases hp : s.phase with
  | idle =>
      cases e <;> simp only [syncStep, hp] at hstep <;> cases hstep <;>
        exact ⟨hImp, by intro ts hts; cases hts⟩
  | fetching =>
      cases e <;> simp only [syncStep, hp] at hstep <;> cases hstep
      · -- fetchPage: the new batch holds only entries strictly after the cursor
        refine ⟨hImp, ?_⟩
        intro ts hts
        have := List.mem_filter.mp hts
        simpa using this.2
      · exact ⟨hImp, by intro ts hts; cases hts⟩
      · exact ⟨hImp, by intro ts hts; cases hts⟩
  | processing b =>
      cases e <;> simp only [syncStep, hp] at hstep <;> cases hstep
      · -- processBatch: the committed batch is a sub-batch of the fetched one
        refine ⟨hImp, ?_⟩
        intro ts hts
        have := List.mem_filter.mp hts
        exact hBatch ts (by rw [hp]; exact this.1)
      · exact ⟨hImp, by intro ts hts; cases hts⟩
  | committing b =>
      cases e <;> simp only [syncStep, hp] at hstep <;> cases hstep
      · -- commitOk: the cursor jumps to the greatest committed timestamp
        refine ⟨?_, by intro ts hts; cases hts⟩
        intro ts hts
        rcases List.mem_append.mp hts with h | h
        · exact Nat.le_trans (hImp ts h) (le_foldr_max _ _)
        · exact mem_le_foldr_max _ _ ts h
      · exact ⟨hImp, by intro ts hts; cases hts⟩
      · exact ⟨hImp, by intro ts hts; cases hts⟩
  | backingOff =>
      cases e <;> simp only [syncStep, hp] at hstep <;> cases hstep
      · exact ⟨hImp, by intro ts hts; cases hts⟩
      · exact ⟨hImp, by intro ts hts; cases hts⟩

/-- C8 — Synchronization cursor: for every synchronizer state satisfying
the cursor invariant, the persisted cursor is monotonically non-decreasing
over every sequence of synchronizer steps; a single applicable step
preserves the invariant and changes the cursor only on the
committing-batch transition (advanced only after the batch transaction
commits); a successful commit of a non-empty batch strictly advances the
cursor; a restart resumes at the persisted cursor with the committed
entries intact; and no entry of an in-flight batch is an already-committed
entry (no re-import). -/
theorem synchronizer_cursor_monotone (s : SyncState) (hInv : SyncInv s) :
    (∀ es : List SyncEvent, s.cursor ≤ (syncRun s es).cursor)
      ∧ (∀ e s', syncStep s e = some s' →
          s.cursor ≤ s'.cursor
            ∧ SyncInv s'
            ∧ (s'.cursor ≠ s.cursor →
                e = SyncEvent.commitOk ∧ ∃ b, s.phase = SyncPhase.committing b)
            ∧ (e = SyncEvent.restart →
                s'.phase = SyncPhase.idle ∧ s'.cursor = s.cursor ∧ s'.imported = s.imported)
            ∧ (∀ b, s.phase = SyncPhase.committing b →
                (∀ ts ∈ b, ts ∉ s.imported)
                  ∧ (b ≠ [] → e = SyncEvent.commitOk → s.cursor < s'.cursor))) := by
  obtain ⟨hImp, hBatch⟩ := hInv
  refine ⟨syncRun_cursor_le s, ?_⟩
  intro e s' hstep
  refine ⟨syncStep_cursor_le s e s' hstep, syncStep_inv s e s' ⟨hImp, hBatch⟩ hstep, ?_, ?_, ?_⟩
  · -- cursor changes only on commitOk from a committing phase
    intro hne
    cases hp : s.phase <;> cases e <;>
      simp only [syncStep, hp] at hstep <;>
      cases hstep <;>
      first
        | exact absurd rfl hne
        | exact ⟨rfl, _, rfl⟩
  · -- restart resumes from the persisted cursor
    intro he
    subst he
    cases hp : s.phase <;>
      simp only [syncStep, hp] at hstep <;>
      (cases hstep; exact ⟨rfl, rfl, rfl⟩)
  · -- no re-import, and strict advance on a successful non-empty commit
    intro b hp
    refine ⟨?_, ?_⟩
    · intro ts hts hmem
      have h1 : s.cursor < ts := hBatch ts (by rw [hp]; exact hts)
      have h2 : ts ≤ s.cursor := hImp ts hmem
      omega
    · intro hne he
      subst he
      simp only [syncStep, hp] at hstep
      cases hstep
      rcases b with _ | ⟨x, xs⟩
      · exact absurd rfl hne
      · have hx : s.cursor < x := hBatch x (by rw [hp]; exact List.mem_cons_self x xs)
        exact Nat.lt_of_lt_of_le hx (mem_le_foldr_max s.cursor (x :: xs) x (List.mem_cons_self x xs))

/-- Witness for C8: committing the batch `[5]` from cursor 3 with committed
entries `[1, 2]` strictly advances the cursor. -/
theorem synchronizer_cursor_monotone_witness :
    SyncInv ⟨SyncPhase.committing [5], 3, [1, 2]⟩
      ∧ (⟨SyncPhase.committing [5], 3, [1, 2]⟩ : SyncState).cursor
          < (⟨SyncPhase.idle, 5, [1, 2, 5]⟩ : SyncState).cursor :=
  ⟨by decide,
    (((synchronizer_cursor_monotone ⟨SyncPhase.committing [5], 3, [1, 2]⟩ (by decide)).2
        SyncEvent.commitOk ⟨SyncPhase.idle, 5, [1, 2, 5]⟩ (by decide)).2.2.2.2 [5] rfl).2
      (by decide) rfl⟩

/-! ### Search view (`SearchView.cpp`) -/

/-- The `maxEntries` constant of `SearchView.cpp` (line 41). -/
def maxEntries : Nat := 6

/-- Modelled from the spec: `Track::getByFilter(session, clusterIds,
keywords, range, more)` — the tracks matching the cluster filters and
keywords, restricted to the range, with a has-more flag. The matching
itself is the database layer's concern (not in the provided sources), so it
is abstracted into the `matching` predicate over track ids. -/
def Track.getByFilter (tracks : List Nat) (matching : Nat → Bool) (offset limit : Nat) :
    RangeResults Nat :=
  applyRange (tracks.filter matching) offset limit

/-- Embeds `SearchView::createTrackResults` (`SearchView.cpp` lines
172-192): query the tracks by filter with `Range {0, maxEntries}`; when no
track matches, the container pointer stays null (`none`); otherwise the
container holds one entry per returned track. -/
def createTrackResults (tracks : List Nat) (matching : Nat → Bool) : Option (List Nat) :=
  let res := (Track.getByFilter tracks matching 0 maxEntries).results
  if res.isEmpty then none else some res

/-- C9 — Track search result cap and empty case: `createTrackResults`
queries at most `maxEntries = 6` tracks at range offset 0, returns `none`
(null container) exactly when no track matches the current filters and
keywords, and otherwise returns a container with exactly one entry per
returned track. -/
theorem createTrackResults_cap (tracks : List Nat) (matching : Nat → Bool) :
    maxEntries = 6
      ∧ (Track.getByFilter tracks matching 0 maxEntries).results.length ≤ maxEntries
      ∧ (createTrackResults tracks matching = none ↔ tracks.filter matching = [])
      ∧ (∀ c, createTrackResults tracks matching = some c →
          c = (Track.getByFilter tracks matching 0 maxEntries).results) := by
  have hres : (Track.getByFilter tracks matching 0 maxEntries).results
      = (tracks.filter matching).take maxEntries := by
    unfold Track.getByFilter applyRange
    rw [List.drop_zero]
  refine ⟨rfl, ?_, ?_, ?_⟩
  · rw [hres]
    exact (List.length_take _ _).le.trans (Nat.min_le_left _ _)
  · unfold createTrackResults
    rw [hres]
    rcases hf : tracks.filter matching with _ | ⟨x, xs⟩
    · simp
    · simp [maxEntries]
  · intro c hc
    unfold createTrackResults at hc
    by_cases he : (Track.getByFilter tracks matching 0 maxEntries).results.isEmpty
    · rw [if_pos he] at hc
      cases hc
    · rw [if_neg he] at hc
      exact (Option.some.injEq _ _ ▸ hc).symm

/-- Witness for C9: among tracks `[1, 2, 3]` with only even ids matching,
the container holds exactly the single matching track. -/
theorem createTrackResults_cap_witness :
    createTrackResults [1, 2, 3] (fun t => t % 2 == 0) = some [2]
      ∧ ([2] : List Nat)
          = (Track.getByFilter [1, 2, 3] (fun t => t % 2 == 0) 0 maxEntries).results := by
  have h := (createTrackResults_cap [1, 2, 3] (fun t => t % 2 == 0)).2.2.2 [2] (by decide)
  exact ⟨by decide, h⟩

/-- An entity collector of the search view (release or artist collector):
the underlying matching entities and the configured maximum count. -/
structure Collector where
  maxCount : Nat
  items : List Nat
deriving Repr, DecidableEq

/-- Modelled from the spec: `ReleaseCollector::get` / `ArtistCollector::get`
honour the configured maximum count — at most `maxCount` entities are ever
served, range-paginated. The collector implementation is not in the
provided sources. -/
def Collector.get (c : Collector) (offset limit : Nat) : RangeResults Nat :=
  applyRange (c.items.take c.maxCount) offset limit

/-- Embeds the `SearchView::SearchView` collector configuration
(`SearchView.cpp` lines 73-74): the collector's maximum count is
`getBatchSize(mode) * 30`. -/
def SearchView.searchCollector (items : List Nat) (batchSize : Nat) : Collector :=
  { maxCount := batchSize * 30, items := items }

/-- Embeds `SearchView::addSomeArtists` / `addSomeReleases`
(`SearchView.cpp` lines 130-170): fetch the next batch at offset
`results.getCount()` and append it to the infinite-scrolling container. -/
def SearchView.addSome (c : Collector) (acc : List Nat) (batchSize : Nat) : List Nat :=
  acc ++ (Collector.get c acc.length batchSize).results

/-- The container contents after `n` scrolling requests. -/
def SearchView.addSomeIter (c : Collector) (batchSize : Nat) : Nat → List Nat
  | 0 => []
  | n + 1 => SearchView.addSome c (SearchView.addSomeIter c batchSize n) batchSize

theorem addSome_length_le (c : Collector) (acc : List Nat) (batchSize : Nat)
    (h : acc.length ≤ c.maxCount) :
    (SearchView.addSome c acc batchSize).length ≤ c.maxCount := by
  unfold SearchView.addSome Collector.get applyRange
  simp only [List.length_append, List.length_take, List.length_drop]
  omega

/-- C10 — Search result volume limit: the search view configures the
release and artist collectors with a maximum count of 30 batches
(`getBatchSize(mode) * 30`), so no matter how many scrolling requests are
served and how many matches exist, the accumulated entries never exceed 30
batches. -/
theorem searchView_maxCount (items : List Nat) (batchSize : Nat) (n : Nat) :
    (SearchView.searchCollector items batchSize).maxCount = batchSize * 30
      ∧ (SearchView.addSomeIter (SearchView.searchCollector items batchSize) batchSize n).length
          ≤ batchSize * 30 := by
  refine ⟨rfl, ?_⟩
  have hmax : (SearchView.searchCollector items batchSize).maxCount = batchSize * 30 := rfl
  induction n with
  | zero => simp [SearchView.addSomeIter]
  | succ n ih =>
      rw [SearchView.addSomeIter]
      have := addSome_length_le (SearchView.searchCollector items batchSize)
        (SearchView.addSomeIter (SearchView.searchCollector items batchSize) batchSize n)
        batchSize (by rw [hmax]; exact ih)
      rw [hmax] at this
      exact this

end Lms
